import Mathlib

/-!
Verification of the dst-client library (`src/dstclient/api.py`).

The embedding models the pure data flow of the three public read
operations of `DerStandardAPI`:

* `get_ticker_threads`   — maps the `rcs` list of a ticker response to
  `Thread` records (field access on the raw JSON records is fallible);
* `get_thread_postings`  — the cursor pagination loop over posting pages,
  followed by deduplication with a Python `dict` comprehension and the
  mapping to `Posting` records;
* `get_forum_postings`   — flattening (`linearize`) of the GraphQL reply
  tree, filtering by lifecycle status, and the mapping to `Posting`.

Network transport, URL construction and the consent-cookie automation are
outside the embedding; the backend is a parameter supplying the decoded
JSON data that `resp.json()` would return.  Timestamps are modelled as the
values `dateutil.parser.parse` produces: a local wall-clock value plus a
UTC offset.
-/

/-- A parsed timestamp as produced by `dateutil.parser.parse`: a local
wall-clock value (in seconds) together with the UTC offset (in seconds)
of the timezone it is expressed in.  The denoted instant is
`localSec - offsetSec`. -/
structure DateTime where
  localSec : Int
  offsetSec : Int
deriving DecidableEq, Repr

/-- `dt.astimezone(pytz.utc)`: re-express the same instant in UTC
(offset 0). -/
def astimezoneUtc (d : DateTime) : DateTime :=
  ⟨d.localSec - d.offsetSec, 0⟩

/-- The absolute instant denoted by a `DateTime`. -/
def dtInstant (d : DateTime) : Int :=
  d.localSec - d.offsetSec

/-- Errors an operation can surface.  `keyError k` models Python's
built-in `KeyError` raised by `record["k"]` when the key is absent;
`indexError` models `IndexError` from positional list indexing.
`malformedResponseError` is modelled from the spec: the spec's error
taxonomy (§7) names a `MalformedResponseError` for missing fields, but no
such class appears in `api.py`; the constructor exists so that statements
about it can be expressed. -/
inductive PyError where
  | keyError (key : String)
  | indexError
  | malformedResponseError
deriving DecidableEq, Repr

/-- Modelled from the spec: the `User` dataclass
(`{user_id : string, name : string}`), imported by `api.py` from the
`dstclient.dataclasses` module which is not part of the sources. -/
structure User where
  user_id : String
  name : String
deriving DecidableEq, Repr

/-- Modelled from the spec: the `Thread` dataclass. -/
structure Thread where
  thread_id : Int
  ticker_id : Int
  published : DateTime
  title : Option String
  message : Option String
  user : User
  upvotes : Int
  downvotes : Int
deriving DecidableEq, Repr

/-- Modelled from the spec: the `Posting` dataclass.
`parent_id = none` marks a root posting; `thread_id = none` marks a
forum-sourced posting. -/
structure Posting where
  posting_id : Int
  parent_id : Option Int
  user : User
  thread_id : Option Int
  published : DateTime
  title : Option String
  message : Option String
  upvotes : Int
  downvotes : Int
deriving DecidableEq, Repr

/-- Python's `x or None` applied to an optional string field: absent
stays `None`, and a present but empty string is coalesced to `None`. -/
def orNone : Option String → Option String
  | none => none
  | some s => if s = "" then none else some s

/-- `record["k"]`: a required key lookup, raising `KeyError k` when the
key is absent. -/
def pyKey {α : Type} (key : String) : Option α → Except PyError α
  | some a => .ok a
  | none => .error (.keyError key)

/-- `xs[i]`: positional indexing, raising `IndexError` when the index is
out of range. -/
def pyIndex {α : Type} (xs : List α) (i : Nat) : Except PyError α :=
  match xs.get? i with
  | some a => .ok a
  | none => .error .indexError

/-- Sequential evaluation of a Python list comprehension whose body may
raise: the first failure aborts the whole comprehension. -/
def mapExcept {α β : Type} (f : α → Except PyError β) : List α → Except PyError (List β)
  | [] => .ok []
  | x :: xs =>
    match f x with
    | .error e => .error e
    | .ok y =>
      match mapExcept f xs with
      | .error e => .error e
      | .ok ys => .ok (y :: ys)

/-! ### Ticker threads (`get_ticker_threads`) -/

/-- One raw record of the `rcs` list of a `redcontent` response.  Every
field is optional because the JSON record may lack any key; `api.py`
accesses `id`, `ctd`, `cid`, `cn`, `vp`, `vn` with `[]` (required) and
`hl`, `cm` with `.get` (optional). -/
structure RawTickerThread where
  id : Option Int
  ctd : Option DateTime
  hl : Option String
  cm : Option String
  cid : Option String
  cn : Option String
  vp : Option Int
  vn : Option Int
deriving DecidableEq, Repr

/-- A `redcontent` response; the `rcs` key itself may be absent. -/
structure TickerResponse where
  rcs : Option (List RawTickerThread)
deriving DecidableEq, Repr

/-- The `Thread(...)` construction of `get_ticker_threads`, with the
required key lookups evaluated in the order Python evaluates the keyword
arguments: `id`, `ctd`, `cid`, `cn`, `vp`, `vn`. -/
def mapTickerThread (tickerId : Int) (t : RawTickerThread) : Except PyError Thread :=
  match t.id with
  | none => .error (.keyError "id")
  | some i =>
    match t.ctd with
    | none => .error (.keyError "ctd")
    | some ctd =>
      match t.cid with
      | none => .error (.keyError "cid")
      | some cid =>
        match t.cn with
        | none => .error (.keyError "cn")
        | some cn =>
          match t.vp with
          | none => .error (.keyError "vp")
          | some vp =>
            match t.vn with
            | none => .error (.keyError "vn")
            | some vn =>
              .ok { thread_id := i
                    published := astimezoneUtc ctd
                    ticker_id := tickerId
                    title := orNone t.hl
                    message := orNone t.cm
                    user := { user_id := cid, name := cn }
                    upvotes := vp
                    downvotes := vn }

/-- `get_ticker_threads`: map every record of the `rcs` list of the
response to a `Thread`. -/
def get_ticker_threads (tickerId : Int) (resp : TickerResponse) : Except PyError (List Thread) :=
  match resp.rcs with
  | none => .error (.keyError "rcs")
  | some rcs => mapExcept (mapTickerThread tickerId) rcs

/-! ### Ticker postings (`get_thread_postings`) -/

/-- One raw posting record of a `postings` page (`p` list).  The claims
probe the missing-field behaviour through the ticker-thread records, so
the posting records are modelled as well-formed: every key `api.py`
accesses is present (`ppid` may be JSON `null` for roots). -/
structure RawTickerPosting where
  pid : Int
  ppid : Option Int
  cid : String
  cn : String
  cd : DateTime
  hl : Option String
  tx : Option String
  vp : Int
  vn : Int
deriving DecidableEq, Repr

/-- The backend answering one `postings` page request: given the number
of requests already issued and the `skipToPostingId` parameter of the
request (absent on the first request, and absent whenever the cursor
value is falsy), it returns the `p` list of the response. -/
def TickerBackend : Type :=
  Nat → Option Int → List RawTickerPosting

/-- A backend that replays a fixed page sequence, ignoring the cursor —
the "sequence of pages returned by the backend" of the spec. -/
def pageSeq (pages : Nat → List RawTickerPosting) : TickerBackend :=
  fun i _ => pages i

/-- The cursor parameter actually sent: `_get_thread_postings_page` adds
`skipToPostingId` only when `skip_to` is truthy, so a cursor value of `0`
is sent as no cursor at all. -/
def sendCursor (skipTo : Int) : Option Int :=
  if skipTo = 0 then none else some skipTo

/-- The `while page["p"]:` loop of `get_thread_postings`, indexed by
fuel.  `i` counts the requests already issued, `cursor` is the parameter
of the request about to be inspected, `acc` the accumulated postings.
Returns the accumulated raw postings and the total number of requests,
or `none` when the loop has not halted within `fuel` iterations. -/
def tickerLoop (backend : TickerBackend) :
    Nat → Nat → Option Int → List RawTickerPosting → Option (List RawTickerPosting × Nat)
  | 0, _, _, _ => none
  | fuel + 1, i, cursor, acc =>
    match backend i cursor with
    | [] => some (acc, i + 1)
    | q :: qs =>
      tickerLoop backend fuel (i + 1)
        (sendCursor ((q :: qs).getLast (List.cons_ne_nil q qs)).pid)
        (acc ++ q :: qs)

/-- One insertion into a Python `dict` (insertion-ordered): an existing
key keeps its position and gets the new value, a new key is appended. -/
def dictInsert {α : Type} (d : List (Int × α)) (k : Int) (v : α) : List (Int × α) :=
  match d with
  | [] => [(k, v)]
  | (k₀, v₀) :: rest =>
    if k₀ = k then (k₀, v) :: rest else (k₀, v₀) :: dictInsert rest k v

/-- Python `dict` lookup. -/
def dictLookup {α : Type} (k : Int) : List (Int × α) → Option α
  | [] => none
  | (k₀, v) :: rest => if k₀ = k then some v else dictLookup k rest

/-- The dict comprehension `{p["pid"]: p for p in postings}`. -/
def pyDict (ps : List RawTickerPosting) : List (Int × RawTickerPosting) :=
  ps.foldl (fun d p => dictInsert d p.pid p) []

/-- `list({p["pid"]: p for p in postings}.values())`: deduplication by
posting id — keys keep first-seen order, values are last-seen. -/
def dedupByPid (ps : List RawTickerPosting) : List RawTickerPosting :=
  (pyDict ps).map Prod.snd

/-- The `Posting(...)` construction of `get_thread_postings`. -/
def mapTickerPosting (threadId : Int) (p : RawTickerPosting) : Posting :=
  { posting_id := p.pid
    parent_id := p.ppid
    user := { user_id := p.cid, name := p.cn }
    thread_id := some threadId
    published := astimezoneUtc p.cd
    title := orNone p.hl
    message := orNone p.tx
    upvotes := p.vp
    downvotes := p.vn }

/-- `get_thread_postings`: run the pagination loop, deduplicate by id,
map to `Posting`.  The second component of the result is the number of
page requests issued (instrumentation of the embedding). -/
def get_thread_postings (threadId : Int) (backend : TickerBackend) (fuel : Nat) :
    Option (List Posting × Nat) :=
  match tickerLoop backend fuel 0 none [] with
  | none => none
  | some (raw, reqs) => some ((dedupByPid raw).map (mapTickerPosting threadId), reqs)

/-! ### Forum postings (`get_forum_postings`) -/

/-- One node of the GraphQL reply tree: the fields requested by
`nodequery` — id, lifecycle status, author id and name, title, text, the
aggregated reactions (name/value pairs), creation timestamp, the id of
the thread's root posting, and the list of replies.  `title` and `text`
may be JSON `null`. -/
inductive ForumNode where
  | node (id : Int) (lifecycleStatus : String) (authorId : String) (authorName : String)
      (title : Option String) (text : Option String) (reactions : List (String × Int))
      (created : DateTime) (rootPostingId : Int) (replies : List ForumNode)

def ForumNode.id : ForumNode → Int
  | .node i _ _ _ _ _ _ _ _ _ => i

def ForumNode.lifecycleStatus : ForumNode → String
  | .node _ s _ _ _ _ _ _ _ _ => s

def ForumNode.authorId : ForumNode → String
  | .node _ _ a _ _ _ _ _ _ _ => a

def ForumNode.authorName : ForumNode → String
  | .node _ _ _ a _ _ _ _ _ _ => a

def ForumNode.title : ForumNode → Option String
  | .node _ _ _ _ t _ _ _ _ _ => t

def ForumNode.text : ForumNode → Option String
  | .node _ _ _ _ _ t _ _ _ _ => t

def ForumNode.reactions : ForumNode → List (String × Int)
  | .node _ _ _ _ _ _ r _ _ _ => r

def ForumNode.created : ForumNode → DateTime
  | .node _ _ _ _ _ _ _ c _ _ => c

def ForumNode.rootPostingId : ForumNode → Int
  | .node _ _ _ _ _ _ _ _ r _ => r

def ForumNode.replies : ForumNode → List ForumNode
  | .node _ _ _ _ _ _ _ _ _ r => r

mutual

/-- The `linearize` helper of `get_forum_postings`:
`postings = [e for e in edges]; for e in edges: postings += linearize(e["replies"])`
— all the nodes of the list first, then, for each in turn, its
linearized reply subtree. -/
def linearize : List ForumNode → List ForumNode
  | edges => edges ++ linearizeChildren edges

/-- The `for e in edges: postings += linearize(e["replies"])` loop. -/
def linearizeChildren : List ForumNode → List ForumNode
  | [] => []
  | .node _ _ _ _ _ _ _ _ _ rs :: es => linearize rs ++ linearizeChildren es

end

mutual

/-- The set of nodes of a tree, as a list: the node followed by the
nodes of its reply subtrees.  Used to quantify over "every node of the
tree". -/
def allNodesN : ForumNode → List ForumNode
  | .node a b c d e f g h i rs => .node a b c d e f g h i rs :: allNodes rs

/-- The set of nodes of a forest, as a list. -/
def allNodes : List ForumNode → List ForumNode
  | [] => []
  | e :: es => allNodesN e ++ allNodes es

end

mutual

/-- The number of nodes of a tree. -/
def nodeCount : ForumNode → Nat
  | .node _ _ _ _ _ _ _ _ _ rs => 1 + forestCount rs

/-- The total number of nodes of a forest. -/
def forestCount : List ForumNode → Nat
  | [] => 0
  | e :: es => nodeCount e + forestCount es

end

mutual

/-- Modelled from the spec: the pre-order traversal of a tree the spec's
flattening section describes — each node immediately followed by its
fully traversed reply subtrees, siblings in backend order. -/
def preorderN : ForumNode → List ForumNode
  | .node a b c d e f g h i rs => .node a b c d e f g h i rs :: preorderF rs

/-- Modelled from the spec: pre-order traversal of a forest. -/
def preorderF : List ForumNode → List ForumNode
  | [] => []
  | e :: es => preorderN e ++ preorderF es

end

/-- The `Posting(...)` construction of `get_forum_postings`, with the
positional accesses `reactions.aggregated[0]` and `[1]` evaluated in
Python's keyword-argument order. -/
def toForumPosting (p : ForumNode) : Except PyError Posting :=
  match pyIndex p.reactions 0 with
  | .error e => .error e
  | .ok r0 =>
    match pyIndex p.reactions 1 with
    | .error e => .error e
    | .ok r1 =>
      .ok { posting_id := p.id
            parent_id := if p.id = p.rootPostingId then none else some p.rootPostingId
            user := { user_id := p.authorId, name := p.authorName }
            thread_id := none
            published := p.created
            title := orNone p.title
            message := orNone p.text
            upvotes := r0.2
            downvotes := r1.2 }

/-- `get_forum_postings`, from the decoded root edges onwards: linearize
the reply tree, keep the nodes whose lifecycle status is `"Published"`,
and map each to a `Posting`. -/
def get_forum_postings (root : List ForumNode) : Except PyError (List Posting) :=
  mapExcept toForumPosting
    ((linearize root).filter (fun p => p.lifecycleStatus = "Published"))

/-! ### Lemmas: the Python dict model -/

theorem dictInsert_keys {α : Type} (d : List (Int × α)) (k : Int) (v : α) :
    (dictInsert d k v).map Prod.fst =
      if k ∈ d.map Prod.fst then d.map Prod.fst else d.map Prod.fst ++ [k] := by
  induction d with
  | nil => simp [dictInsert]
  | cons e rest ih =>
    obtain ⟨k₀, v₀⟩ := e
    by_cases hk : k₀ = k
    · subst hk
      simp [dictInsert]
    · simp only [dictInsert, if_neg hk, List.map_cons, ih, List.mem_cons]
      by_cases hmem : k ∈ rest.map Prod.fst
      · simp [hmem, Ne.symm hk]
      · simp [hmem, Ne.symm hk]

theorem dictInsert_keys_nodup {α : Type} (d : List (Int × α)) (k : Int) (v : α)
    (h : (d.map Prod.fst).Nodup) : ((dictInsert d k v).map Prod.fst).Nodup := by
  rw [dictInsert_keys]
  by_cases hmem : k ∈ d.map Prod.fst
  · simpa [hmem] using h
  · simpa [hmem] using List.Nodup.append h (List.nodup_singleton k) (by simpa using hmem)

theorem dictInsert_mem {α : Type} (d : List (Int × α)) (k : Int) (v : α) (e : Int × α)
    (he : e ∈ dictInsert d k v) : e = (k, v) ∨ e ∈ d := by
  induction d with
  | nil => simpa [dictInsert] using he
  | cons e₀ rest ih =>
    obtain ⟨k₀, v₀⟩ := e₀
    by_cases hk : k₀ = k
    · subst hk
      rcases (by simpa [dictInsert] using he : e = (k₀, v) ∨ e ∈ rest) with h | h
      · exact Or.inl h
      · exact Or.inr (List.mem_cons_of_mem _ h)
    · rcases (by simpa [dictInsert, hk] using he : e = (k₀, v₀) ∨ e ∈ dictInsert rest k v)
        with h | h
      · exact Or.inr (by simp [h])
      · rcases ih h with h | h
        · exact Or.inl h
        · exact Or.inr (List.mem_cons_of_mem _ h)

/-- Keys already present survive an insertion. -/
theorem dictInsert_keys_mono {α : Type} (d : List (Int × α)) (k k₀ : Int) (v : α)
    (h : k₀ ∈ d.map Prod.fst) : k₀ ∈ (dictInsert d k v).map Prod.fst := by
  rw [dictInsert_keys]
  by_cases hmem : k ∈ d.map Prod.fst <;> simp [hmem, h]

/-- The inserted key is present after an insertion. -/
theorem dictInsert_keys_self {α : Type} (d : List (Int × α)) (k : Int) (v : α) :
    k ∈ (dictInsert d k v).map Prod.fst := by
  rw [dictInsert_keys]
  by_cases hmem : k ∈ d.map Prod.fst <;> simp [hmem]

theorem dictLookup_insert {α : Type} (d : List (Int × α)) (k k₁ : Int) (v : α) :
    dictLookup k (dictInsert d k₁ v) =
      if k₁ = k then some v else dictLookup k d := by
  induction d with
  | nil =>
    by_cases hk : k₁ = k <;> simp [dictInsert, dictLookup, hk]
  | cons e rest ih =>
    obtain ⟨k₀, v₀⟩ := e
    by_cases h₀ : k₀ = k₁
    · subst h₀
      by_cases hk : k₀ = k <;> simp [dictInsert, dictLookup, hk]
    · by_cases hk : k₀ = k
      · subst hk
        have hne : ¬ k₁ = k₀ := fun h => h₀ h.symm
        simp [dictInsert, h₀, dictLookup, hne]
      · simp [dictInsert, h₀, dictLookup, hk, ih]

theorem dictLookup_of_mem_nodup {α : Type} (d : List (Int × α)) (k : Int) (v : α)
    (hnd : (d.map Prod.fst).Nodup) (hmem : (k, v) ∈ d) : dictLookup k d = some v := by
  induction d with
  | nil => cases hmem
  | cons e rest ih =>
    obtain ⟨k₀, v₀⟩ := e
    rcases List.mem_cons.mp hmem with h | h
    · rw [Prod.ext_iff] at h
      obtain ⟨h1, h2⟩ := h
      simp only at h1 h2
      subst h1
      subst h2
      simp [dictLookup]
    · have hk : ¬ k₀ = k := by
        intro hkk
        subst hkk
        have hkmem : k₀ ∈ rest.map Prod.fst := List.mem_map.mpr ⟨(k₀, v), h, rfl⟩
        simp_all
      have hrest : (rest.map Prod.fst).Nodup := by
        simpa using hnd.of_cons
      simp [dictLookup, hk, ih hrest h]

theorem pyDict_go_keys_nodup (ps : List RawTickerPosting) :
    ∀ d : List (Int × RawTickerPosting), (d.map Prod.fst).Nodup →
      ((ps.foldl (fun d p => dictInsert d p.pid p) d).map Prod.fst).Nodup := by
  induction ps with
  | nil => intro d h; simpa using h
  | cons p rest ih =>
    intro d h
    exact ih _ (dictInsert_keys_nodup d p.pid p h)

theorem pyDict_go_pid (ps : List RawTickerPosting) :
    ∀ d : List (Int × RawTickerPosting), (∀ e ∈ d, e.2.pid = e.1) →
      ∀ e ∈ ps.foldl (fun d p => dictInsert d p.pid p) d, e.2.pid = e.1 := by
  induction ps with
  | nil => intro d h; simpa using h
  | cons p rest ih =>
    intro d h
    refine ih _ ?_
    intro e he
    rcases dictInsert_mem d p.pid p e he with h₁ | h₁
    · subst h₁; rfl
    · exact h e h₁

theorem pyDict_go_keys_mono (ps : List RawTickerPosting) :
    ∀ (d : List (Int × RawTickerPosting)) (k : Int), k ∈ d.map Prod.fst →
      k ∈ (ps.foldl (fun d p => dictInsert d p.pid p) d).map Prod.fst := by
  induction ps with
  | nil => intro d k h; simpa using h
  | cons p rest ih =>
    intro d k h
    exact ih _ k (dictInsert_keys_mono d p.pid k p h)

theorem pyDict_go_mem_keys (ps : List RawTickerPosting) :
    ∀ (d : List (Int × RawTickerPosting)) (p : RawTickerPosting), p ∈ ps →
      p.pid ∈ (ps.foldl (fun d p => dictInsert d p.pid p) d).map Prod.fst := by
  induction ps with
  | nil => intro d p hp; cases hp
  | cons q rest ih =>
    intro d p hp
    rcases List.mem_cons.mp hp with h | h
    · subst h
      exact pyDict_go_keys_mono rest _ p.pid (dictInsert_keys_self d p.pid p)
    · exact ih _ p h

theorem mem_pyDict_keys (ps : List RawTickerPosting) (p : RawTickerPosting) (hp : p ∈ ps) :
    p.pid ∈ (pyDict ps).map Prod.fst :=
  pyDict_go_mem_keys ps [] p hp

theorem pyDict_keys_nodup (ps : List RawTickerPosting) :
    ((pyDict ps).map Prod.fst).Nodup :=
  pyDict_go_keys_nodup ps [] (by simp)

theorem pyDict_pid (ps : List RawTickerPosting) :
    ∀ e ∈ pyDict ps, e.2.pid = e.1 :=
  pyDict_go_pid ps [] (by simp)

theorem pyDict_concat (ps : List RawTickerPosting) (p : RawTickerPosting) :
    pyDict (ps ++ [p]) = dictInsert (pyDict ps) p.pid p := by
  unfold pyDict
  rw [List.foldl_append]
  rfl

/-- The value a Python dict comprehension keyed by `pid` stores for a key
is the last record of the list with that `pid`. -/
theorem pyDict_lookup_lastWins (k : Int) (ps : List RawTickerPosting) :
    dictLookup k (pyDict ps) = (ps.filter (fun p => p.pid = k)).getLast? := by
  induction ps using List.reverseRecOn with
  | nil => simp [pyDict, dictLookup]
  | append_singleton rest p ih =>
    rw [pyDict_concat, dictLookup_insert, List.filter_append]
    by_cases hk : p.pid = k
    · simp [hk, List.filter, List.getLast?_concat]
    · simp [hk, List.filter, ih]

theorem dedupByPid_pids_nodup (ps : List RawTickerPosting) :
    ((dedupByPid ps).map (fun p => p.pid)).Nodup := by
  have h : (dedupByPid ps).map (fun p => p.pid) = (pyDict ps).map Prod.fst := by
    unfold dedupByPid
    rw [List.map_map]
    exact List.map_congr_left fun e he => pyDict_pid ps e he
  rw [h]
  exact pyDict_keys_nodup ps

/-- Every accumulated posting id survives deduplication. -/
theorem dedupByPid_complete (ps : List RawTickerPosting) (p : RawTickerPosting) (hp : p ∈ ps) :
    ∃ q ∈ dedupByPid ps, q.pid = p.pid := by
  have hk := mem_pyDict_keys ps p hp
  rcases List.mem_map.mp hk with ⟨e, he, hek⟩
  exact ⟨e.2, List.mem_map.mpr ⟨e, he, rfl⟩, by rw [pyDict_pid ps e he, hek]⟩

/-- Every surviving record is the last record of the input carrying its
id: duplicates collapse with last-seen content winning. -/
theorem dedupByPid_lastWins (ps : List RawTickerPosting) (v : RawTickerPosting)
    (hv : v ∈ dedupByPid ps) :
    (ps.filter (fun p => p.pid = v.pid)).getLast? = some v := by
  rcases List.mem_map.mp hv with ⟨e, he, hev⟩
  have hpid := pyDict_pid ps e he
  have hlook : dictLookup e.1 (pyDict ps) = some e.2 := by
    refine dictLookup_of_mem_nodup _ e.1 e.2 (pyDict_keys_nodup ps) ?_
    simpa using he
  have h1 : dictLookup v.pid (pyDict ps) = some v := by
    rw [← hev, hpid]
    exact hlook
  rw [← pyDict_lookup_lastWins, h1]

/-! ### Lemmas: the pagination loop -/

/-- The concatenation of pages `i, i+1, ..., i+n-1` of a page sequence. -/
def pagesConcat (pages : Nat → List RawTickerPosting) : Nat → Nat → List RawTickerPosting
  | _, 0 => []
  | i, n + 1 => pages i ++ pagesConcat pages (i + 1) n

theorem pagesConcat_eq_flatMap (pages : Nat → List RawTickerPosting) (n : Nat) :
    ∀ i, pagesConcat pages i n = ((List.range n).map (i + ·)).flatMap pages := by
  induction n with
  | zero => intro i; simp [pagesConcat]
  | succ m ih =>
    intro i
    rw [List.range_succ_eq_map]
    simp only [pagesConcat, List.map_cons, List.flatMap_cons, List.map_map, Nat.add_zero]
    rw [ih (i + 1)]
    congr 1
    congr 1
    apply List.map_congr_left
    intro j _
    simp only [Function.comp_apply]
    omega

/-- Running the pagination loop against a page sequence whose first
empty page is at offset `n`: the loop consumes pages `i .. i+n-1`,
issues `n + 1` further requests and halts at the empty page. -/
theorem tickerLoop_run (pages : Nat → List RawTickerPosting) :
    ∀ (n fuel i : Nat) (cursor : Option Int) (acc : List RawTickerPosting),
      (∀ j, j < n → pages (i + j) ≠ []) → pages (i + n) = [] → n < fuel →
      tickerLoop (pageSeq pages) fuel i cursor acc =
        some (acc ++ pagesConcat pages i n, i + n + 1) := by
  intro n
  induction n with
  | zero =>
    intro fuel i cursor acc _ hempty hfuel
    match fuel, hfuel with
    | fuel + 1, _ =>
      simp only [Nat.add_zero] at hempty
      simp [tickerLoop, pageSeq, hempty, pagesConcat]
  | succ m ih =>
    intro fuel i cursor acc hne hempty hfuel
    match fuel, hfuel with
    | fuel + 1, hfuel =>
      have h0 : pages i ≠ [] := by
        have := hne 0 (Nat.succ_pos m)
        simpa using this
      match hp : pages i, h0 with
      | q :: qs, _ =>
        simp only [tickerLoop, pageSeq, hp]
        have hrec := ih fuel (i + 1) (sendCursor ((q :: qs).getLast (List.cons_ne_nil q qs)).pid)
          (acc ++ q :: qs)
          (fun j hj => by
            have := hne (j + 1) (Nat.succ_lt_succ hj)
            simpa [Nat.add_assoc, Nat.add_comm 1 j] using this)
          (by
            have : i + 1 + m = i + (m + 1) := by omega
            rw [this]
            exact hempty)
          (Nat.lt_of_succ_lt_succ hfuel)
        rw [hrec, ← hp]
        have harr : i + 1 + m + 1 = i + (m + 1) + 1 := by omega
        rw [harr]
        simp [pagesConcat, hp]

/-- If the backend never returns an empty page, the loop never halts,
whatever the fuel. -/
theorem tickerLoop_diverges (backend : TickerBackend)
    (h : ∀ i cursor, backend i cursor ≠ []) :
    ∀ (fuel i : Nat) (cursor : Option Int) (acc : List RawTickerPosting),
      tickerLoop backend fuel i cursor acc = none := by
  intro fuel
  induction fuel with
  | zero => intro i cursor acc; rfl
  | succ m ih =>
    intro i cursor acc
    match hp : backend i cursor, h i cursor with
    | q :: qs, _ =>
      simp only [tickerLoop, hp]
      exact ih _ _ _

/-! ### Lemmas: fallible comprehensions -/

theorem mapExcept_ok_forward {α β : Type} (f : α → Except PyError β) :
    ∀ (l : List α) (ys : List β), mapExcept f l = .ok ys →
      ∀ x ∈ l, ∃ y ∈ ys, f x = .ok y := by
  intro l
  induction l with
  | nil => intro ys h x hx; cases hx
  | cons a l ih =>
    intro ys h x hx
    cases hfa : f a with
    | error e =>
      simp only [mapExcept, hfa] at h
      cases h
    | ok y =>
      cases hml : mapExcept f l with
      | error e =>
        simp only [mapExcept, hfa, hml] at h
        cases h
      | ok ys' =>
        simp only [mapExcept, hfa, hml, Except.ok.injEq] at h
        subst h
        rcases List.mem_cons.mp hx with hxa | hxl
        · subst hxa
          exact ⟨y, List.mem_cons_self y ys', hfa⟩
        · rcases ih ys' hml x hxl with ⟨y', hy', hfy'⟩
          exact ⟨y', List.mem_cons_of_mem _ hy', hfy'⟩

theorem mapExcept_ok_backward {α β : Type} (f : α → Except PyError β) :
    ∀ (l : List α) (ys : List β), mapExcept f l = .ok ys →
      ∀ y ∈ ys, ∃ x ∈ l, f x = .ok y := by
  intro l
  induction l with
  | nil =>
    intro ys h y hy
    simp only [mapExcept, Except.ok.injEq] at h
    subst h
    cases hy
  | cons a l ih =>
    intro ys h y hy
    cases hfa : f a with
    | error e =>
      simp only [mapExcept, hfa] at h
      cases h
    | ok y₀ =>
      cases hml : mapExcept f l with
      | error e =>
        simp only [mapExcept, hfa, hml] at h
        cases h
      | ok ys' =>
        simp only [mapExcept, hfa, hml, Except.ok.injEq] at h
        subst h
        rcases List.mem_cons.mp hy with hya | hyl
        · subst hya
          exact ⟨a, List.mem_cons_self a l, hfa⟩
        · rcases ih ys' hml y hyl with ⟨x, hx, hfx⟩
          exact ⟨x, List.mem_cons_of_mem _ hx, hfx⟩

/-- If one element of the list has no successful image and every element
either succeeds or fails with a `KeyError`, the whole comprehension fails
with a `KeyError`. -/
theorem mapExcept_keyError {α β : Type} (f : α → Except PyError β) :
    ∀ (l : List α) (x : α),
      (∀ z ∈ l, (∃ y, f z = .ok y) ∨ ∃ k, f z = .error (.keyError k)) →
      x ∈ l → (∀ y, f x ≠ .ok y) →
      ∃ k, mapExcept f l = .error (.keyError k) := by
  intro l
  induction l with
  | nil => intro x _ hx; cases hx
  | cons a l ih =>
    intro x htot hx hfail
    rcases htot a (List.mem_cons_self a l) with ⟨y, hy⟩ | ⟨k, hk⟩
    · have hxl : x ∈ l := by
        rcases List.mem_cons.mp hx with hxa | hxl
        · subst hxa
          exact absurd hy (hfail y)
        · exact hxl
      rcases ih x (fun z hz => htot z (List.mem_cons_of_mem _ hz)) hxl hfail with ⟨k, hk⟩
      refine ⟨k, ?_⟩
      simp only [mapExcept, hy, hk]
    · refine ⟨k, ?_⟩
      simp only [mapExcept, hk]

/-! ### Lemmas: the ticker-thread mapping -/

/-- The mapping of one raw ticker record either succeeds or raises a
`KeyError`; no other outcome exists. -/
theorem mapTickerThread_cases (tid : Int) (t : RawTickerThread) :
    (∃ th, mapTickerThread tid t = .ok th) ∨
      ∃ k, mapTickerThread tid t = .error (.keyError k) := by
  obtain ⟨i, c, hl, cm, cid, cn, vp, vn⟩ := t
  cases i <;> cases c <;> cases cid <;> cases cn <;> cases vp <;> cases vn <;>
    first
      | exact Or.inr ⟨_, rfl⟩
      | exact Or.inl ⟨_, rfl⟩

/-- A raw ticker record with any required field absent never maps to a
`Thread`. -/
theorem mapTickerThread_missing (tid : Int) (t : RawTickerThread)
    (h : t.id = none ∨ t.ctd = none ∨ t.cid = none ∨ t.cn = none ∨
         t.vp = none ∨ t.vn = none) :
    ∀ th, mapTickerThread tid t ≠ .ok th := by
  intro th heq
  obtain ⟨i, c, hl, cm, cid, cn, vp, vn⟩ := t
  cases i <;> cases c <;> cases cid <;> cases cn <;> cases vp <;> cases vn <;>
    simp_all [mapTickerThread]

/-! ### Lemmas: the forum reply tree -/

theorem linearize_eq (es : List ForumNode) :
    linearize es = es ++ linearizeChildren es := by
  rw [linearize]

theorem linearizeChildren_cons (e : ForumNode) (es : List ForumNode) :
    linearizeChildren (e :: es) =
      linearize (ForumNode.replies e) ++ linearizeChildren es := by
  cases e
  rw [linearizeChildren]
  rfl

theorem allNodesN_eq (e : ForumNode) :
    allNodesN e = e :: allNodes (ForumNode.replies e) := by
  cases e
  rfl

theorem allNodes_cons (e : ForumNode) (es : List ForumNode) :
    allNodes (e :: es) = allNodesN e ++ allNodes es := by
  rfl

theorem nodeCount_eq (e : ForumNode) :
    nodeCount e = 1 + forestCount (ForumNode.replies e) := by
  cases e
  rfl

theorem sizeOf_replies_lt (e : ForumNode) : sizeOf (ForumNode.replies e) < sizeOf e := by
  cases e
  simp [ForumNode.replies]

/-- `linearize` is a permutation of the node set of the forest: it
enumerates every node exactly once, merely in a different order. -/
theorem linearize_perm : (es : List ForumNode) → (linearize es).Perm (allNodes es)
  | [] => by simp [linearize, linearizeChildren, allNodes]
  | .node a b c d f g h i j rs :: es => by
    have h1 := linearize_perm rs
    have h2 := linearize_perm es
    rw [linearize_eq] at h2
    rw [linearize_eq, linearizeChildren_cons, allNodes_cons, allNodesN_eq]
    simp only [ForumNode.replies]
    have hmid : List.Perm (es ++ (linearize rs ++ linearizeChildren es))
        (allNodes rs ++ allNodes es) := by
      rw [← List.append_assoc]
      exact (List.Perm.append_right _ List.perm_append_comm).trans
        (by rw [List.append_assoc]; exact h1.append h2)
    simp only [List.cons_append]
    exact hmid.cons _

theorem allNodes_length : (es : List ForumNode) → (allNodes es).length = forestCount es
  | [] => rfl
  | .node a b c d f g h i j rs :: es => by
    have h1 := allNodes_length rs
    have h2 := allNodes_length es
    rw [allNodes_cons, allNodesN_eq]
    simp only [ForumNode.replies, List.length_append, List.length_cons, h1, h2]
    simp only [forestCount, nodeCount]
    omega

/-- The flattened list has exactly one entry per node of the tree. -/
theorem linearize_length (es : List ForumNode) :
    (linearize es).length = forestCount es := by
  rw [(linearize_perm es).length_eq, allNodes_length]

theorem mem_allNodes (x : ForumNode) (es : List ForumNode) :
    x ∈ allNodes es ↔ ∃ e ∈ es, x ∈ allNodesN e := by
  induction es with
  | nil => simp [allNodes]
  | cons e es ih =>
    rw [allNodes_cons]
    simp only [List.mem_append, ih, List.mem_cons]
    constructor
    · rintro (h | ⟨e₀, he₀, hx⟩)
      · exact ⟨e, Or.inl rfl, h⟩
      · exact ⟨e₀, Or.inr he₀, hx⟩
    · rintro ⟨e₀, (rfl | he₀), hx⟩
      · exact Or.inl hx
      · exact Or.inr ⟨e₀, he₀, hx⟩

theorem linearizeChildren_mem (e : ForumNode) (es : List ForumNode) (he : e ∈ es) :
    ∃ X Y, linearizeChildren es =
      X ++ linearize (ForumNode.replies e) ++ Y := by
  induction es with
  | nil => cases he
  | cons q es ih =>
    rcases List.mem_cons.mp he with h | h
    · subst h
      exact ⟨[], linearizeChildren es, by simp [linearizeChildren_cons]⟩
    · rcases ih h with ⟨X, Y, hXY⟩
      exact ⟨linearize (ForumNode.replies q) ++ X, Y, by
        simp [linearizeChildren_cons, hXY, List.append_assoc]⟩

/-- The flattened subtree list of a top-level node sits contiguously
inside the flattening of the forest. -/
theorem linearize_contig_top (e : ForumNode) (es : List ForumNode) (he : e ∈ es) :
    ∃ X Y, linearize es = X ++ linearize (ForumNode.replies e) ++ Y := by
  rcases linearizeChildren_mem e es he with ⟨X, Y, hXY⟩
  exact ⟨es ++ X, Y, by simp [linearize_eq, hXY, List.append_assoc]⟩

/-- `a` occurs before `b` in `l`: `l` splits into a part containing `a`
followed by a part containing `b`. -/
def SplitPrecedes {α : Type} (l : List α) (a b : α) : Prop :=
  ∃ l₁ l₂, l = l₁ ++ l₂ ∧ a ∈ l₁ ∧ b ∈ l₂

theorem splitPrecedes_lift {α : Type} {m : List α} {a b : α} (X Y : List α)
    (h : SplitPrecedes m a b) : SplitPrecedes (X ++ m ++ Y) a b := by
  rcases h with ⟨m₁, m₂, rfl, ha, hb⟩
  exact ⟨X ++ m₁, m₂ ++ Y, by simp [List.append_assoc], by simp [ha], by simp [hb]⟩

/-- The flattened subtree list of any node of the forest sits
contiguously inside the flattening of the forest. -/
theorem linearize_contig (es : List ForumNode) : ∀ n ∈ allNodes es,
    ∃ X Y, linearize es = X ++ linearize (ForumNode.replies n) ++ Y := by
  intro n hn
  rcases (mem_allNodes n es).mp hn with ⟨e, he, hne⟩
  rw [allNodesN_eq] at hne
  rcases List.mem_cons.mp hne with rfl | hdeep
  · exact linearize_contig_top n es he
  · have hrec := linearize_contig (ForumNode.replies e) n hdeep
    rcases hrec with ⟨X, Y, hXY⟩
    rcases linearize_contig_top e es he with ⟨X₀, Y₀, hXY₀⟩
    exact ⟨X₀ ++ X, Y ++ Y₀, by simp [hXY₀, hXY, List.append_assoc]⟩
termination_by sizeOf es
decreasing_by
  have hlt := List.sizeOf_lt_of_mem he
  have hre := sizeOf_replies_lt e
  omega

/-- Every node of the forest appears in the flattening before every node
of its reply subtree: ancestors precede descendants. -/
theorem linearize_ancestor_first (es : List ForumNode) : ∀ n ∈ allNodes es,
    ∀ d ∈ allNodes (ForumNode.replies n), SplitPrecedes (linearize es) n d := by
  intro n hn d hd
  rcases (mem_allNodes n es).mp hn with ⟨e, he, hne⟩
  rw [allNodesN_eq] at hne
  rcases List.mem_cons.mp hne with rfl | hdeep
  · refine ⟨es, linearizeChildren es, linearize_eq es, he, ?_⟩
    rcases linearizeChildren_mem n es he with ⟨X, Y, hXY⟩
    rw [hXY]
    have : d ∈ linearize (ForumNode.replies n) :=
      (linearize_perm (ForumNode.replies n)).mem_iff.mpr hd
    simp [this]
  · have hrec := linearize_ancestor_first (ForumNode.replies e) n hdeep d hd
    rcases linearize_contig_top e es he with ⟨X₀, Y₀, hXY₀⟩
    rw [hXY₀]
    exact splitPrecedes_lift X₀ Y₀ hrec
termination_by sizeOf es
decreasing_by
  have hlt := List.sizeOf_lt_of_mem he
  have hre := sizeOf_replies_lt e
  omega

/-! ### Lemmas: the forum posting mapping -/

theorem toForumPosting_ok (p : ForumNode) (r0 r1 : String × Int) (rest : List (String × Int))
    (h : ForumNode.reactions p = r0 :: r1 :: rest) :
    toForumPosting p = .ok
      { posting_id := p.id
        parent_id := if p.id = p.rootPostingId then none else some p.rootPostingId
        user := { user_id := p.authorId, name := p.authorName }
        thread_id := none
        published := p.created
        title := orNone p.title
        message := orNone p.text
        upvotes := r0.2
        downvotes := r1.2 } := by
  unfold toForumPosting pyIndex
  rw [h]
  rfl

theorem toForumPosting_short (p : ForumNode) (h : (ForumNode.reactions p).length < 2) :
    toForumPosting p = .error PyError.indexError := by
  unfold toForumPosting pyIndex
  rcases hr : p.reactions with _ | ⟨r0, _ | ⟨r1, rest⟩⟩
  · rfl
  · rfl
  · rw [hr] at h
    simp at h
    omega

theorem toForumPosting_shape (p : ForumNode) (q : Posting) (h : toForumPosting p = .ok q) :
    ∃ r0 r1 rest, ForumNode.reactions p = r0 :: r1 :: rest ∧
      q = { posting_id := p.id
            parent_id := if p.id = p.rootPostingId then none else some p.rootPostingId
            user := { user_id := p.authorId, name := p.authorName }
            thread_id := none
            published := p.created
            title := orNone p.title
            message := orNone p.text
            upvotes := r0.2
            downvotes := r1.2 } := by
  rcases hr : p.reactions with _ | ⟨r0, _ | ⟨r1, rest⟩⟩
  · rw [toForumPosting_short p (by rw [hr]; simp)] at h
    cases h
  · rw [toForumPosting_short p (by rw [hr]; simp)] at h
    cases h
  · rw [toForumPosting_ok p r0 r1 rest hr] at h
    exact ⟨r0, r1, rest, rfl, (Except.ok.inj h).symm⟩

/-! ### Lemmas: empty-string coalescing -/

theorem orNone_empty : orNone (some "") = none := rfl

theorem orNone_ne_empty (o : Option String) : orNone o ≠ some "" := by
  rcases o with _ | s
  · simp [orNone]
  · by_cases hs : s = "" <;> simp [orNone, hs]

/-! ### Lemmas: assembling `get_thread_postings` -/

theorem get_thread_postings_eq (threadId : Int) (backend : TickerBackend) (fuel : Nat)
    (raw : List RawTickerPosting) (reqs : Nat)
    (h : tickerLoop backend fuel 0 none [] = some (raw, reqs)) :
    get_thread_postings threadId backend fuel =
      some ((dedupByPid raw).map (mapTickerPosting threadId), reqs) := by
  unfold get_thread_postings
  rw [h]

theorem get_thread_postings_inv (threadId : Int) (backend : TickerBackend) (fuel : Nat)
    (res : List Posting) (reqs : Nat)
    (h : get_thread_postings threadId backend fuel = some (res, reqs)) :
    ∃ raw, tickerLoop backend fuel 0 none [] = some (raw, reqs) ∧
      res = (dedupByPid raw).map (mapTickerPosting threadId) := by
  unfold get_thread_postings at h
  rcases hl : tickerLoop backend fuel 0 none [] with _ | ⟨raw, reqs'⟩
  · rw [hl] at h
    cases h
  · rw [hl] at h
    simp only [Option.some.injEq, Prod.mk.injEq] at h
    refine ⟨raw, ?_, h.1.symm⟩
    rw [h.2]

/-! ### Claims -/

/-- C1: for every ticker thread and every backend page sequence, a
completed `get_thread_postings` run returns no two postings with the
same `posting_id`; every accumulated raw posting is represented by
exactly one entry with its id, and each returned posting is the image of
the *last* accumulated raw record carrying its id (last-seen wins for
duplicate ids with different content). -/
theorem ticker_dedup_no_duplicates (tid : Int) (backend : TickerBackend) (fuel : Nat)
    (res : List Posting) (reqs : Nat)
    (h : get_thread_postings tid backend fuel = some (res, reqs)) :
    (res.map Posting.posting_id).Nodup ∧
    ∀ raw, tickerLoop backend fuel 0 none [] = some (raw, reqs) →
      (∀ p ∈ raw, ∃ q ∈ res, q.posting_id = p.pid) ∧
      (∀ q ∈ res, ∃ p, (raw.filter (fun x => x.pid = q.posting_id)).getLast? = some p ∧
        q = mapTickerPosting tid p) := by
  rcases get_thread_postings_inv tid backend fuel res reqs h with ⟨raw0, hloop0, hres⟩
  subst hres
  constructor
  · have hmap : ((dedupByPid raw0).map (mapTickerPosting tid)).map Posting.posting_id
        = (dedupByPid raw0).map (fun p => p.pid) := by
      rw [List.map_map]
      rfl
    rw [hmap]
    exact dedupByPid_pids_nodup raw0
  · intro raw hloop
    have hsome : some (raw0, reqs) = some (raw, reqs) := hloop0.symm.trans hloop
    have hraw : raw0 = raw := congrArg Prod.fst (Option.some.inj hsome)
    subst hraw
    constructor
    · intro p hp
      rcases dedupByPid_complete raw0 p hp with ⟨v, hv, hvp⟩
      exact ⟨mapTickerPosting tid v, List.mem_map_of_mem _ hv, hvp⟩
    · intro q hq
      rcases List.mem_map.mp hq with ⟨v, hv, rfl⟩
      exact ⟨v, dedupByPid_lastWins raw0 v hv, rfl⟩

/-- Fixture: a raw ticker posting with a given id and message. -/
def exP (n : Int) (msg : String) : RawTickerPosting :=
  { pid := n, ppid := none, cid := "u1", cn := "ann", cd := ⟨0, 0⟩,
    hl := none, tx := some msg, vp := 0, vn := 0 }

/-- Fixture: overlapping page sequence — page 0 has ids 1 and 2, page 1
repeats id 2 (with different content) and adds id 3, page 2 is empty. -/
def exPages : Nat → List RawTickerPosting
  | 0 => [exP 1 "a", exP 2 "b"]
  | 1 => [exP 2 "c", exP 3 "d"]
  | _ => []

/-- Witness for C1 on the spec's example: pages `[1,2]`, `[2,3]`, `[]`
collapse to exactly the ids 1, 2, 3, and id 2 carries the page-1
(last-seen) content. -/
theorem ticker_dedup_no_duplicates_witness :
    get_thread_postings 5 (pageSeq exPages) 3 =
      some ([mapTickerPosting 5 (exP 1 "a"), mapTickerPosting 5 (exP 2 "c"),
             mapTickerPosting 5 (exP 3 "d")], 3) ∧
    (([mapTickerPosting 5 (exP 1 "a"), mapTickerPosting 5 (exP 2 "c"),
       mapTickerPosting 5 (exP 3 "d")].map Posting.posting_id).Nodup) ∧
    [mapTickerPosting 5 (exP 1 "a"), mapTickerPosting 5 (exP 2 "c"),
     mapTickerPosting 5 (exP 3 "d")].map Posting.posting_id = [1, 2, 3] ∧
    (mapTickerPosting 5 (exP 2 "c")).message = some "c" :=
  ⟨by decide, (ticker_dedup_no_duplicates 5 (pageSeq exPages) 3 _ 3 (by decide)).1,
   by decide, by decide⟩

/-- The pagination loop never halts on this backend: every amount of
fuel is exhausted with the loop still running. -/
def loopsForever (backend : TickerBackend) : Prop :=
  ∀ (fuel : Nat) (tid : Int), get_thread_postings tid backend fuel = none

/-- Fixture: a backend that answers every request — whatever the cursor —
with the same non-empty page, so the same posting reappears forever. -/
def constPages : Nat → List RawTickerPosting :=
  fun _ => [exP 1 "a"]

/-- Counterexample to C2: the claim says the loop terminates for *every*
backend page sequence because the cursor strictly advances.  It does
not: against a backend that keeps returning the same overlapping
non-empty page, the loop never reaches an empty page and never halts —
nothing in the code forces the cursor to advance. -/
theorem ticker_pagination_counterexample : loopsForever (pageSeq constPages) := by
  intro fuel tid
  unfold get_thread_postings
  rw [tickerLoop_diverges (pageSeq constPages)
    (fun i cursor => by simp [pageSeq, constPages]) fuel 0 none []]

/-- C2 (amended): the pagination loop terminates if and only if the
backend eventually returns an empty page — it halts the first time a
fetched page is empty, and runs forever (exhausts any fuel) against a
backend that never returns an empty page. -/
theorem ticker_pagination_halts_iff (tid : Int) (pages : Nat → List RawTickerPosting) :
    (∀ n fuel, pages n = [] → n < fuel →
      ∃ res reqs, get_thread_postings tid (pageSeq pages) fuel = some (res, reqs)) ∧
    ((∀ n, pages n ≠ []) →
      ∀ fuel, get_thread_postings tid (pageSeq pages) fuel = none) := by
  constructor
  · intro n fuel hempty hfuel
    have hex : ∃ m, pages m = [] := ⟨n, hempty⟩
    classical
    have hm : pages (Nat.find hex) = [] := Nat.find_spec hex
    have hmin : ∀ j, j < Nat.find hex → pages j ≠ [] := fun j hj => Nat.find_min hex hj
    have hlt : Nat.find hex < fuel := lt_of_le_of_lt (Nat.find_min' hex hempty) hfuel
    have hrun := tickerLoop_run pages (Nat.find hex) fuel 0 none []
      (fun j hj => by simpa using hmin j hj) (by simpa using hm) hlt
    exact ⟨_, _, get_thread_postings_eq tid (pageSeq pages) fuel _ _ hrun⟩
  · intro hne fuel
    unfold get_thread_postings
    rw [tickerLoop_diverges (pageSeq pages) (fun i cursor => hne i) fuel 0 none []]

/-- Fixture: one non-empty page, then empty pages. -/
def haltPages : Nat → List RawTickerPosting
  | 0 => [exP 1 "a"]
  | _ => []

/-- Witness for the amended C2: the loop halts on a sequence whose
second page is empty, and runs forever on the constant non-empty
sequence. -/
theorem ticker_pagination_halts_iff_witness :
    (∃ res reqs, get_thread_postings 7 (pageSeq haltPages) 2 = some (res, reqs)) ∧
    get_thread_postings 7 (pageSeq constPages) 5 = none :=
  ⟨(ticker_pagination_halts_iff 7 haltPages).1 1 2 rfl (by decide),
   (ticker_pagination_halts_iff 7 constPages).2 (fun n => by simp [constPages]) 5⟩

/-- C3: against a backend returning `N` non-empty pages followed by an
empty page, `get_thread_postings` issues exactly `N + 1` page requests
and returns the deduplicated content of all `N` pages. -/
theorem ticker_pagination_requests (tid : Int) (pages : Nat → List RawTickerPosting)
    (N fuel : Nat) (hne : ∀ i, i < N → pages i ≠ []) (hN : pages N = [])
    (hfuel : N < fuel) :
    get_thread_postings tid (pageSeq pages) fuel =
      some ((dedupByPid ((List.range N).flatMap pages)).map (mapTickerPosting tid),
        N + 1) := by
  have hrun := tickerLoop_run pages N fuel 0 none []
    (fun j hj => by simpa using hne j hj) (by simpa using hN) hfuel
  have hpc : pagesConcat pages 0 N = (List.range N).flatMap pages := by
    rw [pagesConcat_eq_flatMap]
    have hmap : (List.range N).map (0 + ·) = List.range N := by
      have h₁ : ∀ j ∈ List.range N, 0 + j = j := fun j _ => by omega
      rw [List.map_congr_left h₁]
      exact List.map_id _
    rw [hmap]
  rw [get_thread_postings_eq tid (pageSeq pages) fuel _ _ hrun]
  rw [List.nil_append, hpc]
  norm_num

/-- Witness for C3: the empty ticker thread (zero postings) yields the
empty list after exactly one request, and the two-page overlap example
finishes after exactly three requests. -/
theorem ticker_pagination_requests_witness :
    get_thread_postings 9 (pageSeq (fun _ => [])) 1 = some ([], 1) ∧
    get_thread_postings 5 (pageSeq exPages) 3 =
      some ((dedupByPid ((List.range 2).flatMap exPages)).map (mapTickerPosting 5), 3) := by
  constructor
  · have h := ticker_pagination_requests 9 (fun _ => []) 0 1
      (fun i hi => absurd hi (Nat.not_lt_zero i)) rfl Nat.one_pos
    simpa using h
  · exact ticker_pagination_requests 5 exPages 2 3
      (fun i hi => by
        match i, hi with
        | 0, _ => simp [exPages, exP]
        | 1, _ => simp [exPages, exP])
      rfl (by decide)

/-- C4: in the forum mapping, `parent_id` is `null` exactly when the
node's id equals the tree's `rootPostingId`; otherwise it equals that
root posting id and never any other id — in particular never the
immediate parent's id when the parent is not the root. -/
theorem forum_parent_id (n : ForumNode) (q : Posting) (h : toForumPosting n = .ok q) :
    (q.parent_id = none ↔ ForumNode.id n = ForumNode.rootPostingId n) ∧
    (ForumNode.id n ≠ ForumNode.rootPostingId n →
      q.parent_id = some (ForumNode.rootPostingId n)) ∧
    (∀ pid : Int, pid ≠ ForumNode.rootPostingId n → q.parent_id ≠ some pid) := by
  rcases toForumPosting_shape n q h with ⟨r0, r1, rest, hr, rfl⟩
  refine ⟨?_, ?_, ?_⟩
  · by_cases hid : ForumNode.id n = ForumNode.rootPostingId n <;> simp [hid]
  · intro hne
    simp [hne]
  · intro pid hpid
    by_cases hid : ForumNode.id n = ForumNode.rootPostingId n <;> simp [hid]
    omega

/-- Fixture: a grandchild node — its immediate parent is node 3, the
thread root is node 1. -/
def exGrand : ForumNode :=
  .node 4 "Published" "u4" "zoe" none none [("upvote", 0), ("downvote", 0)] ⟨40, 0⟩ 1 []

/-- Fixture: an unpublished child carrying empty-string title/text. -/
def exLeafB : ForumNode :=
  .node 2 "Deleted" "u2" "bob" (some "") (some "")
    [("upvote", 1), ("downvote", 2)] ⟨10, 0⟩ 1 []

/-- Fixture: a published child whose aggregated reactions carry swapped
names — first entry named "downvote" — to exhibit positional lookup. -/
def exLeafC : ForumNode :=
  .node 3 "Published" "u3" "eve" none (some "hi")
    [("downvote", 7), ("upvote", 3)] ⟨20, 3600⟩ 1 [exGrand]

/-- Fixture: the root posting of the example tree (its own id equals the
root posting id). -/
def exRoot : ForumNode :=
  .node 1 "Published" "u1" "ann" (some "t") (some "x")
    [("upvote", 4), ("downvote", 5)] ⟨30, 0⟩ 1 [exLeafB, exLeafC]

/-- Fixture: the example forum — root 1, children 2 (unpublished) and 3,
grandchild 4. -/
def exForum : List ForumNode := [exRoot]

/-- Witness for C4: the root posting maps to `parent_id = none`; the
grandchild (immediate parent: node 3) maps to `parent_id = some 1`, not
to its immediate parent's id. -/
theorem forum_parent_id_witness :
    (∃ q, toForumPosting exRoot = .ok q ∧ q.parent_id = none) ∧
    (∃ q, toForumPosting exGrand = .ok q ∧
      q.parent_id = some 1 ∧ q.parent_id ≠ some 3) :=
  ⟨⟨_, rfl, (forum_parent_id exRoot _ rfl).1.mpr rfl⟩,
   ⟨_, rfl, (forum_parent_id exGrand _ rfl).2.1 (by decide),
    (forum_parent_id exGrand _ rfl).2.2 3 (by decide)⟩⟩

/-- C8: the forum mapping reads `upvotes` from the value of the *first*
aggregated-reaction entry and `downvotes` from the *second*, by
position, ignoring the entry names; with fewer than two entries the
mapping produces no posting (it raises `IndexError`). -/
theorem forum_reactions_positional (n : ForumNode) :
    (∀ (q : Posting) (r0 r1 : String × Int) (rest : List (String × Int)),
      ForumNode.reactions n = r0 :: r1 :: rest → toForumPosting n = .ok q →
      q.upvotes = r0.2 ∧ q.downvotes = r1.2) ∧
    ((ForumNode.reactions n).length < 2 →
      toForumPosting n = .error PyError.indexError) := by
  constructor
  · intro q r0 r1 rest hr h
    rw [toForumPosting_ok n r0 r1 rest hr] at h
    rw [← Except.ok.inj h]
    exact ⟨rfl, rfl⟩
  · exact toForumPosting_short n

/-- Fixture: a node with a single aggregated-reaction entry. -/
def exShort : ForumNode :=
  .node 9 "Published" "u9" "pat" none none [("upvote", 1)] ⟨0, 0⟩ 1 []

/-- Witness for C8: with reaction names swapped, `upvotes` still takes
the first value (7) and `downvotes` the second (3); with a single entry
the mapping raises `IndexError`. -/
theorem forum_reactions_positional_witness :
    (∃ q, toForumPosting exLeafC = .ok q ∧ q.upvotes = 7 ∧ q.downvotes = 3) ∧
    toForumPosting exShort = .error PyError.indexError :=
  ⟨⟨_, rfl, (forum_reactions_positional exLeafC).1 _ ("downvote", 7) ("upvote", 3) [] rfl rfl⟩,
   (forum_reactions_positional exShort).2 (by decide)⟩

theorem linearizeChildren_nil : linearizeChildren [] = [] := by
  rw [linearizeChildren]

theorem allNodes_nil : allNodes [] = [] := by
  rw [allNodes]

theorem preorderF_nil : preorderF [] = [] := by
  rw [preorderF]

theorem preorderF_cons (e : ForumNode) (es : List ForumNode) :
    preorderF (e :: es) = preorderN e ++ preorderF es := by
  rw [preorderF]

theorem preorderN_eq (e : ForumNode) :
    preorderN e = e :: preorderF (ForumNode.replies e) := by
  cases e
  rw [preorderN]
  rfl

/-- C5: a node of the reply tree contributes a posting to a successful
`get_forum_postings` result exactly when its lifecycle status is
`"Published"` — every published node's image is in the result, and every
result entry is the image of a published node — whereas the ticker
result keeps every accumulated posting unconditionally (there is no
status field to filter on). -/
theorem forum_published_filter (root : List ForumNode) (res : List Posting)
    (h : get_forum_postings root = .ok res) :
    (∀ n ∈ allNodes root, ForumNode.lifecycleStatus n = "Published" →
      ∃ q ∈ res, toForumPosting n = .ok q) ∧
    (∀ q ∈ res, ∃ n ∈ allNodes root,
      ForumNode.lifecycleStatus n = "Published" ∧ toForumPosting n = .ok q) ∧
    (∀ (tid : Int) (backend : TickerBackend) (fuel reqs : Nat) (res₂ : List Posting)
       (raw : List RawTickerPosting),
      get_thread_postings tid backend fuel = some (res₂, reqs) →
      tickerLoop backend fuel 0 none [] = some (raw, reqs) →
      ∀ p ∈ raw, ∃ q ∈ res₂, q.posting_id = p.pid) := by
  refine ⟨?_, ?_, ?_⟩
  · intro n hn hstat
    have hlin : n ∈ linearize root := (linearize_perm root).mem_iff.mpr hn
    have hfil : n ∈ (linearize root).filter
        (fun p => ForumNode.lifecycleStatus p = "Published") :=
      List.mem_filter.mpr ⟨hlin, by simp [hstat]⟩
    exact mapExcept_ok_forward toForumPosting _ res h n hfil
  · intro q hq
    rcases mapExcept_ok_backward toForumPosting _ res h q hq with ⟨n, hn, hfn⟩
    have hsplit := List.mem_filter.mp hn
    exact ⟨n, (linearize_perm root).mem_iff.mp hsplit.1, by simpa using hsplit.2, hfn⟩
  · intro tid backend fuel reqs res₂ raw h₂ hloop p hp
    rcases get_thread_postings_inv tid backend fuel res₂ reqs h₂ with ⟨raw0, hloop0, rfl⟩
    have hraw : raw0 = raw := congrArg Prod.fst (Option.some.inj (hloop0.symm.trans hloop))
    subst hraw
    rcases dedupByPid_complete raw0 p hp with ⟨v, hv, hvp⟩
    exact ⟨mapTickerPosting tid v, List.mem_map_of_mem _ hv, hvp⟩

/-- The `Posting` images of the three published nodes of `exForum`. -/
def exPostRoot : Posting :=
  { posting_id := 1, parent_id := none, user := { user_id := "u1", name := "ann" },
    thread_id := none, published := ⟨30, 0⟩, title := some "t", message := some "x",
    upvotes := 4, downvotes := 5 }

def exPostC : Posting :=
  { posting_id := 3, parent_id := some 1, user := { user_id := "u3", name := "eve" },
    thread_id := none, published := ⟨20, 3600⟩, title := none, message := some "hi",
    upvotes := 7, downvotes := 3 }

def exPostG : Posting :=
  { posting_id := 4, parent_id := some 1, user := { user_id := "u4", name := "zoe" },
    thread_id := none, published := ⟨40, 0⟩, title := none, message := none,
    upvotes := 0, downvotes := 0 }

theorem linearize_exForum :
    linearize exForum = [exRoot, exLeafB, exLeafC, exGrand] := by
  simp [exForum, exRoot, exLeafB, exLeafC, exGrand, linearize_eq,
    linearizeChildren_cons, linearizeChildren_nil, ForumNode.replies]

theorem get_forum_postings_exForum :
    get_forum_postings exForum = .ok [exPostRoot, exPostC, exPostG] := by
  unfold get_forum_postings
  rw [linearize_exForum]
  rfl

/-- Witness for C5: in the example tree the unpublished node 2 — and
only it — is excluded; the published node 3 is represented. -/
theorem forum_published_filter_witness :
    get_forum_postings exForum = .ok [exPostRoot, exPostC, exPostG] ∧
    [exPostRoot, exPostC, exPostG].map Posting.posting_id = [1, 3, 4] ∧
    (∀ q ∈ [exPostRoot, exPostC, exPostG], q.posting_id ≠ 2) ∧
    (∃ q ∈ [exPostRoot, exPostC, exPostG], toForumPosting exLeafC = .ok q) := by
  refine ⟨get_forum_postings_exForum, by decide, by decide, ?_⟩
  refine (forum_published_filter exForum _ get_forum_postings_exForum).1 exLeafC ?_ rfl
  simp [exForum, exRoot, exLeafB, exLeafC, exGrand, allNodes_cons, allNodesN_eq,
    allNodes_nil, ForumNode.replies]

/-- C6 (amended): `linearize` produces a flat list with one entry per
node of the tree; every node appears before all of its descendants; the
children of every node appear contiguously, in backend order, as do the
top-level nodes.  The traversal is *siblings first* — a whole sibling
list precedes any of its children — which is not a pre-order traversal. -/
theorem linearize_flattening (es : List ForumNode) :
    (linearize es).length = forestCount es ∧
    (∀ n ∈ allNodes es, ∀ d ∈ allNodes (ForumNode.replies n),
      SplitPrecedes (linearize es) n d) ∧
    (∀ n ∈ allNodes es, ∃ X Y, linearize es = X ++ ForumNode.replies n ++ Y) ∧
    (∃ Y, linearize es = es ++ Y) := by
  refine ⟨linearize_length es, linearize_ancestor_first es, ?_,
    ⟨linearizeChildren es, linearize_eq es⟩⟩
  intro n hn
  rcases linearize_contig es n hn with ⟨X, Y, hXY⟩
  refine ⟨X, linearizeChildren (ForumNode.replies n) ++ Y, ?_⟩
  rw [hXY, linearize_eq]
  simp [List.append_assoc]

/-- Fixture: leaf with id 3 (child of node 1). -/
def exLin3 : ForumNode :=
  .node 3 "Published" "u" "n" none none [("upvote", 0), ("downvote", 0)] ⟨0, 0⟩ 1 []

/-- Fixture: leaf with id 2 (sibling of node 1). -/
def exLin2 : ForumNode :=
  .node 2 "Published" "u" "n" none none [("upvote", 0), ("downvote", 0)] ⟨0, 0⟩ 2 []

/-- Fixture: node 1 with the single child 3. -/
def exLin1 : ForumNode :=
  .node 1 "Published" "u" "n" none none [("upvote", 0), ("downvote", 0)] ⟨0, 0⟩ 1 [exLin3]

/-- Fixture: forest with roots 1 (child 3) and 2. -/
def exTreeLin : List ForumNode := [exLin1, exLin2]

/-- Counterexample to C6: on the forest `[1[3], 2]` the flattening
yields ids `1, 2, 3` — the sibling 2 comes before 1's child 3 — whereas
a pre-order traversal yields `1, 3, 2`; `linearize` is not pre-order. -/
theorem linearize_not_preorder :
    (linearize exTreeLin).map ForumNode.id = [1, 2, 3] ∧
    (preorderF exTreeLin).map ForumNode.id = [1, 3, 2] ∧
    linearize exTreeLin ≠ preorderF exTreeLin := by
  have h1 : (linearize exTreeLin).map ForumNode.id = [1, 2, 3] := by
    simp [exTreeLin, exLin1, exLin2, exLin3, linearize_eq, linearizeChildren_cons,
      linearizeChildren_nil, ForumNode.replies, ForumNode.id]
  have h2 : (preorderF exTreeLin).map ForumNode.id = [1, 3, 2] := by
    simp [exTreeLin, exLin1, exLin2, exLin3, preorderF_cons, preorderN_eq,
      preorderF_nil, ForumNode.replies, ForumNode.id]
  refine ⟨h1, h2, fun hcontra => ?_⟩
  rw [hcontra, h2] at h1
  exact absurd h1 (by decide)

/-- Witness for the amended C6 on the example forest: the length
property holds and node 1 precedes its descendant 3 in the output. -/
theorem linearize_flattening_witness :
    (linearize exTreeLin).length = forestCount exTreeLin ∧
    SplitPrecedes (linearize exTreeLin) exLin1 exLin3 := by
  refine ⟨(linearize_flattening exTreeLin).1, ?_⟩
  refine (linearize_flattening exTreeLin).2.1 exLin1 ?_ exLin3 ?_
  · simp [exTreeLin, exLin1, exLin2, exLin3, allNodes_cons, allNodesN_eq,
      allNodes_nil, ForumNode.replies]
  · simp [exLin1, exLin3, allNodes_cons, allNodesN_eq, allNodes_nil, ForumNode.replies]

/-- C7: ticker timestamps (`ctd` for threads, `cd` for postings) are
converted to UTC — the published value carries offset 0 and denotes the
same instant — while forum timestamps are taken over unchanged, with no
timezone conversion; the asymmetry holds across the three mappings. -/
theorem published_timezone_asymmetry :
    (∀ (tid : Int) (t : RawTickerThread) (d : DateTime) (th : Thread),
      t.ctd = some d → mapTickerThread tid t = .ok th →
      th.published = astimezoneUtc d ∧ th.published.offsetSec = 0 ∧
        dtInstant th.published = dtInstant d) ∧
    (∀ (tid : Int) (p : RawTickerPosting),
      (mapTickerPosting tid p).published = astimezoneUtc p.cd ∧
      (mapTickerPosting tid p).published.offsetSec = 0 ∧
      dtInstant (mapTickerPosting tid p).published = dtInstant p.cd) ∧
    (∀ (n : ForumNode) (q : Posting), toForumPosting n = .ok q →
      q.published = ForumNode.created n) := by
  refine ⟨?_, ?_, ?_⟩
  · intro tid t d th hctd hok
    obtain ⟨i, c, hl, cm, cid, cn, vp, vn⟩ := t
    simp only at hctd
    subst hctd
    cases i <;> cases cid <;> cases cn <;> cases vp <;> cases vn <;>
      simp_all [mapTickerThread, astimezoneUtc, dtInstant] <;>
      (subst hok; simp)
  · intro tid p
    refine ⟨rfl, rfl, ?_⟩
    simp [mapTickerPosting, astimezoneUtc, dtInstant]
  · intro n q h
    rcases toForumPosting_shape n q h with ⟨r0, r1, rest, hr, rfl⟩
    rfl

/-- Fixture: the spec's example timestamp, 2022-01-01T12:00:00+01:00 as
local epoch seconds 1641038400 with offset 3600. -/
def exCtd : DateTime := ⟨1641038400, 3600⟩

/-- Fixture: a well-formed raw ticker thread record carrying `exCtd`. -/
def exThreadRec : RawTickerThread :=
  { id := some 10, ctd := some exCtd, hl := some "", cm := none,
    cid := some "u", cn := some "ann", vp := some 1, vn := some 2 }

/-- Witness for C7: the example ticker record yields
2022-01-01T11:00:00Z (offset 0), while the forum node's timestamp keeps
its +01:00 offset untouched. -/
theorem published_timezone_asymmetry_witness :
    (∃ th, mapTickerThread 1 exThreadRec = .ok th ∧
      th.published = ⟨1641034800, 0⟩) ∧
    (∃ q, toForumPosting exLeafC = .ok q ∧ q.published = ⟨20, 3600⟩) := by
  constructor
  · refine ⟨_, rfl, ?_⟩
    have h := published_timezone_asymmetry.1 1 exThreadRec exCtd _ rfl rfl
    exact h.1.trans (by decide)
  · refine ⟨_, rfl, ?_⟩
    have h := published_timezone_asymmetry.2.2 exLeafC _ rfl
    exact h.trans (by decide)

/-- C9 (amended): when a required field is absent — any of `id`, `ctd`,
`cid`, `cn`, `vp`, `vn` in a record, or the `rcs` key of the response —
`get_ticker_threads` fails, surfacing a Python `KeyError` naming a
missing key to the caller, with no partial result.  (The code raises the
built-in `KeyError`, not the spec's `MalformedResponseError`.) -/
theorem ticker_threads_missing_field (tid : Int) (resp : TickerResponse)
    (h : resp.rcs = none ∨ ∃ l, resp.rcs = some l ∧ ∃ t ∈ l,
      t.id = none ∨ t.ctd = none ∨ t.cid = none ∨ t.cn = none ∨
      t.vp = none ∨ t.vn = none) :
    ∃ k, get_ticker_threads tid resp = .error (PyError.keyError k) := by
  rcases h with hnone | ⟨l, hsome, t, htl, hmiss⟩
  · exact ⟨"rcs", by unfold get_ticker_threads; rw [hnone]⟩
  · have hfail := mapTickerThread_missing tid t hmiss
    have htot : ∀ z ∈ l, (∃ y, mapTickerThread tid z = .ok y) ∨
        ∃ k, mapTickerThread tid z = .error (.keyError k) :=
      fun z _ => mapTickerThread_cases tid z
    rcases mapExcept_keyError (mapTickerThread tid) l t htot htl hfail with ⟨k, hk⟩
    exact ⟨k, by unfold get_ticker_threads; rw [hsome]; exact hk⟩

/-- Fixture: a response whose single record lacks the required `vp`
field. -/
def badTickerResponse : TickerResponse :=
  ⟨some [{ id := some 1, ctd := some ⟨0, 0⟩, hl := none, cm := none,
           cid := some "u", cn := some "ann", vp := none, vn := some 0 }]⟩

/-- Counterexample to C9 as stated: with `vp` missing the operation
fails with `KeyError "vp"` — the Python built-in raised by
`t["vp"]` — not with the `MalformedResponseError` the spec names (no
such error exists in `api.py`). -/
theorem ticker_threads_missing_field_counterexample :
    get_ticker_threads 1 badTickerResponse = .error (PyError.keyError "vp") ∧
    get_ticker_threads 1 badTickerResponse ≠
      .error PyError.malformedResponseError := by
  constructor
  · rfl
  · intro hcontra
    have h0 : get_ticker_threads 1 badTickerResponse =
        .error (PyError.keyError "vp") := rfl
    have h1 := h0.symm.trans hcontra
    cases Except.error.inj h1

/-- Witness for the amended C9: the bad response yields a `KeyError`. -/
theorem ticker_threads_missing_field_witness :
    ∃ k, get_ticker_threads 1 badTickerResponse = .error (PyError.keyError k) :=
  ticker_threads_missing_field 1 badTickerResponse
    (Or.inr ⟨_, rfl, _, List.mem_cons_self _ _, by simp⟩)

/-- C10: every optional title/message source field that is present but
empty is coalesced to `null` by the `x or None` idiom, in all three
mappings; no returned title or message is ever the empty string. -/
theorem empty_strings_coalesced :
    (∀ (tid : Int) (t : RawTickerThread) (th : Thread), mapTickerThread tid t = .ok th →
      (t.hl = some "" → th.title = none) ∧ (t.cm = some "" → th.message = none) ∧
      th.title ≠ some "" ∧ th.message ≠ some "") ∧
    (∀ (tid : Int) (p : RawTickerPosting),
      (p.hl = some "" → (mapTickerPosting tid p).title = none) ∧
      (p.tx = some "" → (mapTickerPosting tid p).message = none) ∧
      (mapTickerPosting tid p).title ≠ some "" ∧
      (mapTickerPosting tid p).message ≠ some "") ∧
    (∀ (n : ForumNode) (q : Posting), toForumPosting n = .ok q →
      (ForumNode.title n = some "" → q.title = none) ∧
      (ForumNode.text n = some "" → q.message = none) ∧
      q.title ≠ some "" ∧ q.message ≠ some "") := by
  refine ⟨?_, ?_, ?_⟩
  · intro tid t th hok
    obtain ⟨i, c, hl, cm, cid, cn, vp, vn⟩ := t
    cases i <;> cases c <;> cases cid <;> cases cn <;> cases vp <;> cases vn <;>
      simp_all [mapTickerThread] <;>
      (subst hok
       exact ⟨fun he => by rw [he]; rfl, fun he => by rw [he]; rfl,
         orNone_ne_empty hl, orNone_ne_empty cm⟩)
  · intro tid p
    exact ⟨fun he => by simp [mapTickerPosting, he, orNone],
      fun he => by simp [mapTickerPosting, he, orNone],
      orNone_ne_empty p.hl, orNone_ne_empty p.tx⟩
  · intro n q h
    rcases toForumPosting_shape n q h with ⟨r0, r1, rest, hr, rfl⟩
    exact ⟨fun he => by simp [he, orNone], fun he => by simp [he, orNone],
      orNone_ne_empty (ForumNode.title n), orNone_ne_empty (ForumNode.text n)⟩

/-- Witness for C10: the unpublished fixture node and a ticker record
with empty-string fields map to `none` titles and messages. -/
theorem empty_strings_coalesced_witness :
    (∃ q, toForumPosting exLeafB = .ok q ∧ q.title = none ∧ q.message = none) ∧
    (∃ th, mapTickerThread 1 exThreadRec = .ok th ∧ th.title = none) := by
  constructor
  · refine ⟨_, rfl, ?_, ?_⟩
    · exact (empty_strings_coalesced.2.2 exLeafB _ rfl).1 rfl
    · exact (empty_strings_coalesced.2.2 exLeafB _ rfl).2.1 rfl
  · refine ⟨_, rfl, ?_⟩
    exact (empty_strings_coalesced.1 1 exThreadRec _ rfl).1 rfl
